import Mathlib

/-!
Verification of the cfdm compression/decompression engine against its
specification.  The Lean definitions below are shallow embeddings of the
Python source: ragged encoding from `cfdm/field.py` (`Field.compress`),
subarea descriptors from `cfdm/data/raggedindexedcontiguousarray.py`
(`RaggedIndexedContiguousArray.subarrays`), linear tie-point interpolation
from `cfdm/data/subsampledlineararray.py`, geographic interpolation
coefficients from
`cfdm/data/subarray/mixin/quadraticgeographicinterpolation.py`, and the
`Field.compress` method dispatch.  Decoders whose source module is not part
of the reviewed tree are modelled from the specification text and marked as
such in their doc comments.  Data values are rationals; `none` is the
missing-value mask.
-/

namespace Cfdm

/-- A field array element: `none` is the missing-value (masked) marker. -/
abbrev Val := Option ℚ

/-- The loop in `Field.compress` that scans a row in reverse and counts the
run of missing values before the first non-missing one: this computes the
number of leading missing values of the (reversed) row it is given. -/
def leadingMissing : List Val → Nat
  | [] => 0
  | none :: t => leadingMissing t + 1
  | some _ :: _ => 0

/-- The per-row Count computed by `Field.compress`: the row length minus the
length of the trailing run of missing values (`last` in the source). -/
def rowCount (r : List Val) : Nat := r.length - leadingMissing r.reverse

/-- The list of per-row counts over the flattened data (`count` in
`Field.compress`). -/
def encodeCounts (rows : List (List Val)) : List Nat := rows.map rowCount

/-- The compressed sample array built by `Field.compress`: the trimmed
initial segments `d[:last]` of the rows, concatenated in row order (rows
with a zero count contribute nothing). -/
def encodeCompressed (rows : List (List Val)) : List Val :=
  rows.flatMap (fun r => r.take (rowCount r))

/-- The data of the stored Count variable: `[n for n in count if n]` in
`Field.compress`, i.e. the per-row counts with the zeros omitted. -/
def storedCounts (rows : List (List Val)) : List Nat :=
  (encodeCounts rows).filter (fun n => n != 0)

/-- `true` when the missing values of a row occur only as trailing
padding. -/
def trailingPadded (r : List Val) : Bool :=
  (r.dropWhile Option.isSome).all Option.isNone

/-- Modelled from the spec: the decode of a contiguous ragged array (its
source module `raggedcontiguousarray.py` is not part of the reviewed tree).
Feature boundaries in the compressed dimension are the cumulative sums of
the stored Count; each run is copied into its uncompressed row and the
remaining positions are padded with the missing marker; features beyond the
Count variable stay entirely missing. -/
def decodeCRA (compressed : List Val) (counts : List Nat) (n m : Nat) :
    List (List Val) :=
  match n, counts with
  | 0, _ => []
  | Nat.succ k, [] => List.replicate (k + 1) (List.replicate m none)
  | Nat.succ k, c :: cs =>
      (compressed.take c ++ List.replicate (m - c) none)
        :: decodeCRA (compressed.drop c) cs k m

/-! ### Indexed-contiguous ragged subarea descriptors
(`RaggedIndexedContiguousArray.subarrays`) -/

/-- `np.cumsum` on a list of naturals (`count_partial_sums` in
`subarrays`). -/
def csList : List Nat → List Nat
  | [] => []
  | a :: t => a :: (csList t).map (a + ·)

/-- The largest value of a list of naturals. -/
def listMax (l : List Nat) : Nat := l.foldr max 0

/-- `np.unique(index)`: the distinct values occurring in `index`, in
ascending order. -/
def sortedUnique (l : List Nat) : List Nat :=
  (List.range (listMax l + 1)).filter (fun v => l.contains v)

/-- `np.where(index == i)[0]`: the positions of the profiles assigned to
feature `i`, in ascending order. -/
def profileLocations (index : List Nat) (i : Nat) : List Nat :=
  (List.range index.length).filter (fun j => index.getD j 0 == i)

/-- The compressed-dimension slice the `subarrays` loop emits for the
profile stored at position `j` of the count array: `slice(start,
count_partial_sums[j])` with `start = 0` for `j = 0` and
`count_partial_sums[j-1]` otherwise.  A slice is a `(start, stop)` pair. -/
def codeSlice (count : List Nat) (j : Nat) : Nat × Nat :=
  (if j = 0 then 0 else (csList count).getD (j - 1) 0,
   (csList count).getD j 0)

/-- The compressed-index descriptor list `ind` built by
`RaggedIndexedContiguousArray.subarrays`: for each feature value in
ascending order, one slice per profile of that feature, followed by one
zero-length `slice(0, 0)` for each of the feature's missing ("ghost")
profile slots up to `max_n_profiles`. -/
def cIndicesICRA (index count : List Nat) (maxP : Nat) : List (Nat × Nat) :=
  (sortedUnique index).flatMap (fun i =>
    (profileLocations index i).map (fun j => codeSlice count j)
      ++ List.replicate (maxP - (profileLocations index i).length) (0, 0))

/-- One axis entry of an uncompressed index descriptor: either the full
axis (`slice(None)`) or a bounded `slice(a, b)`. -/
inductive USlice
  | all : USlice
  | bounded (a b : Nat) : USlice
deriving DecidableEq, Repr

/-- `itertools.product` of the per-axis uncompressed index lists built by
`subarrays` for the 3-d uncompressed shape: `slice(i, i+1)` over features,
`slice(j, j+1)` over profile slots, `slice(None)` on the element axis, in
row-major order. -/
def uIndicesICRA (n maxP : Nat) : List (USlice × USlice × USlice) :=
  (List.range n).flatMap (fun i =>
    (List.range maxP).map (fun j =>
      (USlice.bounded i (i + 1), USlice.bounded j (j + 1), USlice.all)))

/-- `itertools.product` of the per-axis uncompressed subarray shapes built
by `subarrays`: `(1, 1, m)` for every subarray, in row-major order. -/
def uShapesICRA (n maxP m : Nat) : List (Nat × Nat × Nat) :=
  (List.range n).flatMap (fun _ =>
    (List.range maxP).map (fun _ => (1, 1, m)))

/-- `itertools.product` of the per-axis subarray locations built by
`subarrays`: `(i, j, 0)` in row-major order. -/
def locationsICRA (n maxP : Nat) : List (Nat × Nat × Nat) :=
  (List.range n).flatMap (fun i =>
    (List.range maxP).map (fun j => (i, j, 0)))

/-- The claim-side slice of profile `j`: boundaries at the cumulative sums
of Count, written with `List.take`/`List.sum` instead of the source's
cumulative-sum array. -/
def specSlice (count : List Nat) (j : Nat) : Nat × Nat :=
  ((count.take j).sum, (count.take (j + 1)).sum)

/-- The values of the compressed array selected by a `(start, stop)`
slice. -/
def slicedValues (c : List ℚ) (s : Nat × Nat) : List ℚ :=
  (c.drop s.1).take (s.2 - s.1)

/-- Modelled from the spec: the subarray decode of an indexed-contiguous
ragged array (its source module lives outside the reviewed tree).  The
subarray at location `(i, j, 0)` receives the compressed values selected by
the `i * maxP + j`-th compressed-index slice, copied with
"min(source length, destination length)" semantics and padded with the
missing marker up to the element-axis size `m`. -/
def decodeICRA (c : List ℚ) (index count : List Nat) (n maxP m : Nat) :
    List (List (List Val)) :=
  let ind := cIndicesICRA index count maxP
  (List.range n).map (fun i =>
    (List.range maxP).map (fun j =>
      let run := (slicedValues c (ind.getD (i * maxP + j) (0, 0))).map some
      run.take m ++ List.replicate (m - run.length) (none : Val)))

/-- `true` exactly when `x` lies inside the `(start, stop)` slice `s`. -/
def containsB (x : Nat) (s : Nat × Nat) : Bool :=
  decide (s.1 ≤ x ∧ x < s.2)

/-! ### Linear subsampled (tie-point) decoding
(`SampledLinearArray.__getitem__` and `_linear_interpolation`) -/

/-- Modelled from the spec: the interpolation coefficient `s` returned by
`SubsampledGeneralArray._s` (a module outside the reviewed tree): the
dimensionless position within the subarea span, evenly spaced from 0 to 1
over the `size` uncompressed positions of the subarea. -/
def sCoeff (size k : Nat) : ℚ := (k : ℚ) / ((size : ℚ) - 1)

/-- The values `u = ua*(1-s) + ub*s` computed by
`SampledLinearArray._linear_interpolation` over a whole interpolation
subarea, before any boundary point is dropped. -/
def linearInterpFull (ua ub : ℚ) (size : Nat) : List ℚ :=
  (List.range size).map (fun k =>
    ua * (1 - sCoeff size k) + ub * sCoeff size k)

/-- `SampledLinearArray._linear_interpolation`: interpolate, then, when the
subarea is not the first (in index space) of a new continuous area, remove
the first point, because that value was already computed by the previous
subarea. -/
def linearInterp (ua ub : ℚ) (size : Nat) (newArea : Bool) : List ℚ :=
  let u := linearInterpFull ua ub size
  if newArea then u else u.drop 1

/-- The full decode loop of `SampledLinearArray.__getitem__` for one
subsampled dimension: visit consecutive tie-point pairs in index order
(`interpolation_subareas`, modelled from the spec: each subarea after the
first shares its first tie point with the previous subarea's last, so only
the first is a new continuous area), interpolate each subarea, and
concatenate the results into the uncompressed buffer. -/
def decodeLinearAux (first : Bool) : List ℚ → List Nat → List ℚ
  | ua :: ub :: tps, ia :: ib :: tpis =>
      linearInterp ua ub (ib - ia + 1) first
        ++ decodeLinearAux false (ub :: tps) (ib :: tpis)
  | _, _ => []

/-- Decode a linear subsampled array from its tie-point values and
tie-point indices. -/
def decodeLinear (tp : List ℚ) (tpi : List Nat) : List ℚ :=
  decodeLinearAux true tp tpi

/-! ### Geographic interpolation coefficients
(`QuadraticGeographicInterpolation`) -/

/-- A three-dimensional cartesian vector. -/
abbrev V3 := ℝ × ℝ × ℝ

/-- `_fplus` (two-vector case): componentwise vector sum. -/
def fplus (va vb : V3) : V3 := (va.1 + vb.1, va.2.1 + vb.2.1, va.2.2 + vb.2.2)

/-- `_fminus`: componentwise vector difference. -/
def fminus (va vb : V3) : V3 := (va.1 - vb.1, va.2.1 - vb.2.1, va.2.2 - vb.2.2)

/-- `_fmultiply`: vector multiplied by a scalar. -/
def fmultiply (r : ℝ) (v : V3) : V3 := (v.1 * r, v.2.1 * r, v.2.2 * r)

/-- `_fdot`: vector dot product. -/
def fdot (va vb : V3) : ℝ := va.1 * vb.1 + va.2.1 * vb.2.1 + va.2.2 * vb.2.2

/-- `_fcross`: vector cross product. -/
def fcross (va vb : V3) : V3 :=
  (va.2.1 * vb.2.2 - va.2.2 * vb.2.1,
   va.2.2 * vb.1 - va.1 * vb.2.2,
   va.1 * vb.2.1 - va.2.1 * vb.1)

/-- `_fsqrt`: `t ** 0.5`. -/
noncomputable def fsqrt (t : ℝ) : ℝ := Real.sqrt t

/-- `QuadraticGeographicInterpolation._fcea2cv`: the cartesian
representation of the interpolation coefficients.  The optional parameters
`ce` and `ca` are `Option` values; the source tests each against `None`
before using it, so an absent parameter contributes nothing to `k` and no
term to `cv`. -/
noncomputable def fcea2cv (va vb : V3) (ce ca : Option ℝ) : V3 :=
  let vr := fmultiply (1 / 2) (fplus va vb)
  let rsqr := fdot vr vr
  let k1 : ℝ := match ce with
    | some c => 1 - c * c
    | none => 1
  let k2 : ℝ := match ca with
    | some c => k1 - c * c
    | none => k1
  let cr := fsqrt k2 - fsqrt rsqr
  let cv := fmultiply cr vr
  let cv2 := match ce with
    | some c => fplus cv (fmultiply c (fminus va vb))
    | none => cv
  match ca with
  | some c => fplus cv2 (fmultiply c (fcross va vb))
  | none => cv2

/-! ### `Field.compress` method dispatch -/

/-- The data state of a field construct: number of data dimensions, the
current compression type as reported by `get_compression_type()`, the data
flattened over all dimensions but the last (the rows the DSG encode loop
scans), and the attached compressed payload, if any: compressed sample
data, the Count variable data and the Index variable data. -/
structure FData where
  ndim : Nat
  ctype : String
  rows : List (List Val)
  stored : Option (List Val × List Nat × List Nat)
deriving DecidableEq

/-- A field construct: either it has data or it does not. -/
structure Field where
  data : Option FData
deriving DecidableEq

/-- The Index variable data built by `Field.compress` for the
`'indexed'` method: the row number repeated once per compressed element of
that row, rows with a zero count contributing nothing. -/
def indexedIndex (rows : List (List Val)) : List Nat :=
  rows.enum.flatMap (fun p => List.replicate (rowCount p.2) p.1)

/-- The compression type `Field.compress` attaches for each supported
method. -/
def raggedTypeOf (method : String) : String := "ragged " ++ method

/-- `str.replace(' ', '_')`: replace every space of the string by an
underscore (character-by-character, as `replace` does for single-character
patterns). -/
def underscoreSpaces (s : String) : String :=
  String.mk (s.data.map (fun c => if c = ' ' then '_' else c))

/-- `Field.compress` as a state transformer on the field construct, with
`Except.error` for a raised `ValueError`.  It mirrors the source order: a
field without data is returned unchanged; a field already compressed by the
requested ragged method is returned unchanged; the dimension checks may
raise; then the method dispatch either attaches the compressed payload or
raises for `'gathered'` (not yet available) and for an unknown method
name. -/
def compressField (method : String) (f : Field) : Except String Field :=
  match f.data with
  | none => Except.ok f
  | some d =>
    if d.ctype ≠ "" ∧ underscoreSpaces d.ctype = "ragged_" ++ method then
      Except.ok f
    else if method = "contiguous" ∧ d.ndim ≠ 2 then
      Except.error
        "The field data must have exactly 2 dimensions for DSG ragged contiguous compression."
    else if method = "indexed" ∧ d.ndim ≠ 2 then
      Except.error
        "The field data must have exactly 2 dimensions for DSG ragged indexed compression."
    else if method = "indexed_contiguous" ∧ d.ndim ≠ 3 then
      Except.error
        "The field data must have exactly 3 dimensions for DSG ragged indexed contiguous compression."
    else if method = "contiguous" then
      Except.ok ⟨some { d with
        ctype := raggedTypeOf method,
        stored := some (encodeCompressed d.rows, storedCounts d.rows, []) }⟩
    else if method = "indexed" then
      Except.ok ⟨some { d with
        ctype := raggedTypeOf method,
        stored := some (encodeCompressed d.rows, [], indexedIndex d.rows) }⟩
    else if method = "indexed_contiguous" then
      Except.ok ⟨some { d with
        ctype := raggedTypeOf method,
        stored := some (encodeCompressed d.rows, storedCounts d.rows,
          indexedIndex d.rows) }⟩
    else if method = "gathered" then
      Except.error "Compression by gathering is not yet available"
    else
      Except.error ("Unknown compression method: " ++ method)

/-- The field a caller observes after `Field.compress`: the successful
result, or, when a `ValueError` propagates, the untouched input field. -/
def afterCompress (method : String) (f : Field) : Field :=
  match compressField method f with
  | Except.ok g => g
  | Except.error _ => f

/-- A field construct with no data. -/
def emptyField : Field := ⟨none⟩

/-- The compression type strings `get_compression_type()` can report. -/
def validCTypes : List String :=
  ["", "ragged contiguous", "ragged indexed", "ragged indexed contiguous",
   "gathered"]

/-! ### Orthogonal subspacing (`Field.__getitem__`) -/

/-- One axis of an index expression: a single integer, a range, or a list
of integers. -/
inductive Idx
  | int (i : ℤ)
  | range (a b : Nat)
  | list (js : List Nat)
deriving DecidableEq, Repr

/-- Resolve a possibly negative integer index against an axis of size
`n`. -/
def wrapIdx (n : Nat) (i : ℤ) : Nat :=
  if i < 0 then (i + n).toNat else i.toNat

/-- Modelled from the spec: `Data._parse_indices` (a module outside the
reviewed tree) normalises each axis index; an integer index `i` becomes the
size-one slice from `i` to `i + 1`, so it takes the i-th element without
reducing the rank. -/
def parseIdx (n : Nat) : Idx → Idx
  | .int i => .range (wrapIdx n i) (wrapIdx n i + 1)
  | .range a b => .range (min a n) (min b n)
  | .list js => .list js

/-- The uncompressed positions an already-parsed axis index selects. -/
def idxPositions : Idx → List Nat
  | .int i => [i.toNat]
  | .range a b => List.range' a (b - a)
  | .list js => js

/-- The per-axis position lists of a parsed index expression. -/
def axisPositions (shape : List Nat) (idxs : List Idx) : List (List Nat) :=
  List.zipWith (fun n ix => idxPositions (parseIdx n ix)) shape idxs

/-- Row-major cartesian product of per-axis position lists: orthogonal
indexing combines the axes independently. -/
def cartesianProd : List (List Nat) → List (List Nat)
  | [] => [[]]
  | l :: ls => l.flatMap (fun p => (cartesianProd ls).map (fun rest => p :: rest))

/-- Row-major flat position of a multi-index in an array of the given
shape. -/
def flatPos : List Nat → List Nat → Nat
  | _ :: ns, p :: ps => p * ns.prod + flatPos ns ps
  | _, _ => 0

/-- The shape of the subspace selected by an index expression: one size per
original axis, each the number of positions that axis's index selects. -/
def subspaceShape (shape : List Nat) (idxs : List Idx) : List Nat :=
  (axisPositions shape idxs).map List.length

/-- The data of the subspace selected by an index expression, gathered
orthogonally in row-major order. -/
def subspaceData (shape : List Nat) (data : List ℚ) (idxs : List Idx) :
    List ℚ :=
  (cartesianProd (axisPositions shape idxs)).map
    (fun multi => data.getD (flatPos shape multi) 0)

/-! ### Concrete scenario inputs from the specification -/

/-- The 4x9 uncompressed array of the contiguous-ragged scenario (the
`Field.compress` docstring array with trailing missing padding and feature
counts 3, 7, 5, 9). -/
def a49 : List (List Val) :=
  [[some 3.98, some 0, some 0, none, none, none, none, none, none],
   [some 0, some 0, some 0, some 3.4, some 0, some 0, some 4.61, none, none],
   [some 0.86, some 0.8, some 0.75, some 0, some 4.56, none, none, none, none],
   [some 0, some 0.09, some 0, some 0.91, some 2.96, some 1.14, some 3.86,
    some 0, some 0]]

/-- A 2x2 trailing-padded array whose first row is entirely missing. -/
def c1CexRows : List (List Val) := [[none, none], [some 1, none]]

/-- The Index variable of the indexed-contiguous scenario: profiles 0, 1
and 3 belong to feature 0 and profile 2 to feature 1. -/
def icraIndex : List Nat := [0, 0, 1, 0]

/-- The Count variable of the indexed-contiguous scenario: the profiles
occupy compressed positions 0-3, 4-5, 6-8 and 9-11. -/
def icraCount : List Nat := [4, 2, 3, 3]

/-- The compressed sample values of the indexed-contiguous scenario. -/
def icraValues : List ℚ := (List.range 12).map (fun k => (k : ℚ))

/-- The shape of the `Field.__getitem__` docstring example. -/
def c10Shape : List Nat := [1, 10, 9]

/-- The index expression of the `Field.__getitem__` docstring example
`f[:, :, 1]`. -/
def c10Idxs : List Idx := [Idx.range 0 1, Idx.range 0 10, Idx.int 1]

/-- A field data state with 2-dimensional uncompressed data. -/
def c8Data : FData := ⟨2, "", [[some 1, none]], none⟩

/-! ## Theorems -/

/-! ### Ragged encode and the contiguous round trip (C1, C6) -/

theorem leadingMissing_le (l : List Val) : leadingMissing l ≤ l.length := by
  induction l with
  | nil => simp [leadingMissing]
  | cons a t ih =>
    cases a with
    | none => simp only [leadingMissing, List.length_cons]; omega
    | some v => simp [leadingMissing]

theorem leadingMissing_append_some (xs : List Val) (v : ℚ) (ys : List Val) :
    leadingMissing (xs ++ some v :: ys) = leadingMissing xs := by
  induction xs with
  | nil => simp [leadingMissing]
  | cons a t ih => cases a <;> simp [leadingMissing, ih]

theorem leadingMissing_replicate (n : Nat) :
    leadingMissing (List.replicate n (none : Val)) = n := by
  induction n with
  | zero => rfl
  | succ k ih => simp [List.replicate_succ, leadingMissing, ih]

theorem leadingMissing_eq_takeWhile (l : List Val) :
    leadingMissing l = (l.takeWhile Option.isNone).length := by
  induction l with
  | nil => rfl
  | cons a t ih =>
    cases a <;> simp [leadingMissing, List.takeWhile_cons, Option.isNone, ih]

theorem rowCount_le (r : List Val) : rowCount r ≤ r.length := Nat.sub_le _ _

theorem rowCount_cons_some (v : ℚ) (t : List Val) :
    rowCount (some v :: t) = rowCount t + 1 := by
  have h := leadingMissing_le t.reverse
  rw [List.length_reverse] at h
  unfold rowCount
  rw [List.reverse_cons, leadingMissing_append_some t.reverse v []]
  simp only [List.length_cons]
  omega

theorem rowCount_replicate (n : Nat) :
    rowCount (List.replicate n (none : Val)) = 0 := by
  unfold rowCount
  rw [List.reverse_replicate, leadingMissing_replicate, List.length_replicate]
  omega

theorem eq_replicate_of_all_isNone {l : List Val}
    (h : l.all Option.isNone = true) : l = List.replicate l.length none := by
  induction l with
  | nil => rfl
  | cons a t ih =>
    simp only [List.all_cons, Bool.and_eq_true] at h
    cases a with
    | none => simp only [List.length_cons, List.replicate_succ]; rw [← ih h.2]
    | some v => simp [Option.isNone] at h

theorem leadingMissing_lt_of_any {l : List Val}
    (h : l.any Option.isSome = true) : leadingMissing l < l.length := by
  induction l with
  | nil => simp at h
  | cons a t ih =>
    cases a with
    | some v => simp [leadingMissing]
    | none =>
      simp only [List.any_cons, Option.isSome, Bool.false_or] at h
      simp only [leadingMissing, List.length_cons]
      have := ih h
      omega

theorem rowCount_pos {r : List Val} (h : r.any Option.isSome = true) :
    rowCount r ≠ 0 := by
  have h2 : r.reverse.any Option.isSome = true := by simpa using h
  have h3 := leadingMissing_lt_of_any h2
  rw [List.length_reverse] at h3
  unfold rowCount
  omega

theorem row_reconstruct (r : List Val) (h : trailingPadded r = true) :
    r.take (rowCount r) ++ List.replicate (r.length - rowCount r) none = r := by
  induction r with
  | nil => simp
  | cons a t ih =>
    cases a with
    | some v =>
      have hw : trailingPadded t = true := by
        simpa [trailingPadded, List.dropWhile] using h
      rw [rowCount_cons_some, List.take_succ_cons, List.length_cons,
        Nat.succ_sub_succ, List.cons_append, ih hw]
    | none =>
      have hall : t.all Option.isNone = true := by
        simpa [trailingPadded, List.dropWhile] using h
      have ht : (none :: t : List Val) = List.replicate (t.length + 1) none := by
        rw [List.replicate_succ, ← eq_replicate_of_all_isNone hall]
      rw [ht, rowCount_replicate]
      simp

/-- C1 (amended): for every 2-dimensional field array whose missing values
occur only as trailing padding at the end of each row, and every row of
which contains at least one non-missing value, compressing with the
contiguous ragged method (`Field.compress('contiguous')`) and then
uncompressing yields an array equal to the original, with the same
positions masked. -/
theorem c1_contiguous_ragged_roundtrip (rows : List (List Val)) (m : Nat)
    (hlen : ∀ r ∈ rows, r.length = m)
    (hwf : ∀ r ∈ rows, trailingPadded r = true)
    (hpos : ∀ r ∈ rows, r.any Option.isSome = true) :
    decodeCRA (encodeCompressed rows) (storedCounts rows) rows.length m
      = rows := by
  induction rows with
  | nil => rfl
  | cons r rest ih =>
    have hr : r.length = m := hlen r (by simp)
    have hcpos : rowCount r ≠ 0 := rowCount_pos (hpos r (by simp))
    have hst : storedCounts (r :: rest) = rowCount r :: storedCounts rest := by
      simp only [storedCounts, encodeCounts, List.map_cons, List.filter_cons]
      simp [hcpos]
    have henc : encodeCompressed (r :: rest)
        = r.take (rowCount r) ++ encodeCompressed rest := by
      simp [encodeCompressed]
    have htk : (r.take (rowCount r)).length = rowCount r := by
      simp [List.length_take, rowCount_le r]
    rw [henc, hst, List.length_cons]
    show (((r.take (rowCount r)) ++ encodeCompressed rest).take (rowCount r)
        ++ List.replicate (m - rowCount r) none)
      :: decodeCRA (((r.take (rowCount r)) ++ encodeCompressed rest).drop
          (rowCount r)) (storedCounts rest) rest.length m = r :: rest
    have hrec : r.take (rowCount r) ++ List.replicate (m - rowCount r) none
        = r := by
      rw [← hr]; exact row_reconstruct r (hwf r (by simp))
    rw [List.take_left' htk, List.drop_left' htk, hrec]
    exact congrArg (r :: ·)
      (ih (fun s hs => hlen s (by simp [hs]))
          (fun s hs => hwf s (by simp [hs]))
          (fun s hs => hpos s (by simp [hs])))

/-- C1 counterexample: a 2x2 array whose missing values are all trailing
padding (its first row is entirely missing) does not round-trip through the
contiguous ragged encode: the stored Count omits the zero-count row, so
decode reassembles the rows in the wrong order. -/
theorem c1_counterexample :
    c1CexRows.all (fun r => r.length == 2 && trailingPadded r) = true
      ∧ decodeCRA (encodeCompressed c1CexRows) (storedCounts c1CexRows)
          c1CexRows.length 2 ≠ c1CexRows := by
  constructor
  · decide
  · decide

/-- C1 witness: the 4x9 scenario array with feature counts 3, 7, 5, 9
round-trips exactly. -/
theorem c1_witness :
    decodeCRA (encodeCompressed a49) (storedCounts a49) a49.length 9 = a49 :=
  c1_contiguous_ragged_roundtrip a49 9 (by decide) (by decide) (by decide)

/-- C6: for every row of the flattened uncompressed array, ragged encoding
sets that row's Count to the row length minus the number of trailing
missing values, omits rows whose Count is 0 from the stored Count variable,
and concatenates the kept initial row segments in row order into a
compressed array of length `sum(Count)`. -/
theorem c6_ragged_encode_structure (rows : List (List Val)) :
    encodeCounts rows
        = rows.map
            (fun r => r.length - (r.reverse.takeWhile Option.isNone).length)
      ∧ storedCounts rows
          = (encodeCounts rows).filter (fun n => decide (0 < n))
      ∧ encodeCompressed rows
          = (rows.map (fun r => r.take (rowCount r))).flatten
      ∧ (encodeCompressed rows).length = (encodeCounts rows).sum := by
  refine ⟨?_, ?_, ?_, ?_⟩
  · exact List.map_congr_left
      (fun r _ => by rw [rowCount, leadingMissing_eq_takeWhile])
  · exact List.filter_congr (fun n _ => by cases n <;> simp)
  · exact List.flatMap_def rows _
  · rw [encodeCompressed, List.flatMap_def, List.length_flatten,
      List.map_map, encodeCounts]
    exact congrArg List.sum (List.map_congr_left (fun r _ => by
      simp [Function.comp, List.length_take, rowCount_le r]))

/-! ### Indexed-contiguous subarea descriptors (C2, C5, C9) -/

theorem csList_length (l : List Nat) : (csList l).length = l.length := by
  induction l with
  | nil => rfl
  | cons a t ih => simp [csList, ih]

theorem csList_getD (l : List Nat) (j : Nat) (h : j < l.length) :
    (csList l).getD j 0 = (l.take (j + 1)).sum := by
  induction l generalizing j with
  | nil => simp at h
  | cons a t ih =>
    cases j with
    | zero => simp [csList]
    | succ k =>
      have hk : k < t.length := by simpa using h
      have hk2 : k < (csList t).length := by rw [csList_length]; exact hk
      have hget : (csList t)[k] = (t.take (k + 1)).sum := by
        rw [← List.getD_eq_getElem (csList t) 0 hk2]
        exact ih k hk
      simp [csList, List.getD_cons_succ, List.getD_eq_getElem?_getD,
        List.getElem?_map, List.getElem?_eq_getElem hk2, hget,
        List.take_succ_cons, List.sum_cons]

theorem codeSlice_eq_specSlice (count : List Nat) (j : Nat)
    (h : j < count.length) : codeSlice count j = specSlice count j := by
  unfold codeSlice specSlice
  cases j with
  | zero =>
    rw [if_pos rfl, csList_getD count 0 h]
    simp
  | succ k =>
    have hk : k < count.length := by omega
    rw [if_neg (Nat.succ_ne_zero k), Nat.add_sub_cancel,
      csList_getD count k hk, csList_getD count (k + 1) h]

theorem mem_profileLocations_lt {index : List Nat} {i j : Nat}
    (h : j ∈ profileLocations index i) : j < index.length := by
  unfold profileLocations at h
  exact List.mem_range.1 (List.mem_filter.1 h).1

theorem flatMap_congr_left {α β : Type _} {l : List α} {f g : α → List β}
    (h : ∀ a ∈ l, f a = g a) : l.flatMap f = l.flatMap g := by
  induction l with
  | nil => rfl
  | cons a t ih =>
    simp only [List.flatMap_cons]
    rw [h a (by simp), ih (fun x hx => h x (by simp [hx]))]

theorem cIndices_eq_spec (index count : List Nat) (maxP : Nat)
    (h : index.length = count.length) :
    cIndicesICRA index count maxP
      = (sortedUnique index).flatMap (fun i =>
          (profileLocations index i).map (fun j => specSlice count j)
            ++ List.replicate (maxP - (profileLocations index i).length)
                (0, 0)) := by
  unfold cIndicesICRA
  refine flatMap_congr_left (fun i _ => ?_)
  refine congrArg (· ++ _) (List.map_congr_left (fun j hj => ?_))
  exact codeSlice_eq_specSlice count j (h ▸ mem_profileLocations_lt hj)

/-- C2 counterexample: for `Index = [0, 0]`, `Count = [1, 1]` with 2
declared features and 2 profile slots, the generator emits only feature 0's
two profile slices and no zero-length ghost slice at all for feature 1
(which is absent from Index), although the claim requires one ghost slice
for each of feature 1's two empty slots: the emitted list is
`[(0, 1), (1, 2)]`, contains no `(0, 0)`, and has 2 elements instead of
4. -/
theorem c2_counterexample :
    cIndicesICRA [0, 0] [1, 1] 2 = [(0, 1), (1, 2)]
      ∧ (0, 0) ∉ cIndicesICRA [0, 0] [1, 1] 2
      ∧ (cIndicesICRA [0, 0] [1, 1] 2).length ≠ 2 * 2 := by
  refine ⟨by decide, by decide, by decide⟩

/-- C2 (amended): the subarea descriptor generator of the indexed-contiguous
ragged array emits, for each feature value occurring in Index, in ascending
order, one compressed-index slice per profile of that feature, with
boundaries at the cumulative sums of Count, followed by one zero-length
slice for every ghost profile slot of that feature up to the
`max_n_profiles` axis size (a feature absent from Index contributes no
slices, not even ghosts); decoding the section-8 scenario into shape
(2, 3, 4) leaves feature 1's second and third profile slots entirely
masked. -/
theorem c2_subarea_descriptors :
    (∀ index count maxP, index.length = count.length →
        cIndicesICRA index count maxP
          = (sortedUnique index).flatMap (fun i =>
              (profileLocations index i).map
                  (fun j => ((count.take j).sum, (count.take (j + 1)).sum))
                ++ List.replicate
                    (maxP - (profileLocations index i).length) (0, 0)))
      ∧ ((decodeICRA icraValues icraIndex icraCount 2 3 4).getD 1 []).getD 1
            [] = List.replicate 4 none
      ∧ ((decodeICRA icraValues icraIndex icraCount 2 3 4).getD 1 []).getD 2
            [] = List.replicate 4 none := by
  refine ⟨fun index count maxP h => cIndices_eq_spec index count maxP h,
    by decide, by decide⟩

/-- C2 witness: the descriptor identity applied to the concrete scenario
Count and Index. -/
theorem c2_witness :
    cIndicesICRA icraIndex icraCount 3
      = (sortedUnique icraIndex).flatMap (fun i =>
          (profileLocations icraIndex i).map
              (fun j => ((icraCount.take j).sum, (icraCount.take (j + 1)).sum))
            ++ List.replicate (3 - (profileLocations icraIndex i).length)
                (0, 0)) :=
  c2_subarea_descriptors.1 icraIndex icraCount 3 (by decide)

theorem blockList_eq {α : Type _} (n maxP : Nat) (f : Nat → Nat → α) :
    (List.range n).flatMap (fun i => (List.range maxP).map (f i))
      = (List.range (n * maxP)).map (fun k => f (k / maxP) (k % maxP)) := by
  induction n with
  | zero => simp
  | succ m ih =>
    rw [List.range_succ, List.flatMap_append, ih, Nat.succ_mul,
      List.range_add, List.map_append, List.map_map]
    congr 1
    simp only [List.flatMap_cons, List.flatMap_nil, List.append_nil]
    refine List.map_congr_left (fun j hj => ?_)
    have hjlt : j < maxP := List.mem_range.1 hj
    have hpos : 0 < maxP := Nat.lt_of_le_of_lt (Nat.zero_le j) hjlt
    have hd : (m * maxP + j) / maxP = m := by
      rw [Nat.mul_comm, Nat.mul_add_div hpos, Nat.div_eq_of_lt hjlt,
        Nat.add_zero]
    have hm : (m * maxP + j) % maxP = j := by
      rw [Nat.mul_comm, Nat.mul_add_mod, Nat.mod_eq_of_lt hjlt]
    simp only [Function.comp_apply, hd, hm]

theorem getD_blockList {α : Type _} (n maxP : Nat) (f : Nat → Nat → α)
    (d : α) (k : Nat) (h : k < n * maxP) :
    ((List.range n).flatMap (fun i => (List.range maxP).map (f i))).getD k d
      = f (k / maxP) (k % maxP) := by
  rw [blockList_eq, List.getD_eq_getElem?_getD, List.getElem?_map,
    List.getElem?_range h]
  rfl

theorem listMax_ge_of_mem {l : List Nat} {v : Nat} (h : v ∈ l) :
    v ≤ listMax l := by
  induction l with
  | nil => simp at h
  | cons a t ih =>
    simp only [listMax, List.foldr_cons]
    rcases List.mem_cons.1 h with rfl | h2
    · exact Nat.le_max_left _ _
    · exact Nat.le_trans (ih h2) (Nat.le_max_right _ _)

theorem listMax_lt {l : List Nat} {n : Nat} (hn : 0 < n)
    (h : ∀ v ∈ l, v < n) : listMax l < n := by
  induction l with
  | nil => simpa [listMax]
  | cons a t ih =>
    simp only [listMax, List.foldr_cons]
    exact Nat.max_lt.mpr ⟨h a (by simp),
      ih (fun v hv => h v (by simp [hv]))⟩

theorem sortedUnique_eq_range {index : List Nat} {n : Nat}
    (hb : ∀ v ∈ index, v < n) (hc : ∀ i < n, index.contains i = true) :
    sortedUnique index = List.range n := by
  cases n with
  | zero =>
    cases index with
    | nil => rfl
    | cons a t => exact absurd (hb a (by simp)) (by omega)
  | succ m =>
    have h1 : listMax index = m := by
      have hub : listMax index < m + 1 := listMax_lt (by omega) hb
      have hmem : m ∈ index := by
        have h2 := hc m (by omega)
        simpa using h2
      have hlb : m ≤ listMax index := listMax_ge_of_mem hmem
      omega
    rw [sortedUnique, h1]
    exact List.filter_eq_self.mpr (fun v hv => hc v (List.mem_range.1 hv))

theorem length_cIndicesICRA {index count : List Nat} {n maxP : Nat}
    (hb : ∀ v ∈ index, v < n) (hc : ∀ i < n, index.contains i = true)
    (hp : ∀ i ∈ sortedUnique index,
      (profileLocations index i).length ≤ maxP) :
    (cIndicesICRA index count maxP).length = n * maxP := by
  unfold cIndicesICRA
  rw [List.flatMap_def, List.length_flatten, List.map_map]
  rw [List.map_congr_left (g := fun _ => maxP) (fun i hi => by
    simp only [Function.comp_apply, List.length_append, List.length_map,
      List.length_replicate]
    have := hp i hi
    omega)]
  rw [List.map_const', List.sum_replicate, smul_eq_mul,
    sortedUnique_eq_range hb hc, List.length_range]

/-- C5 counterexample: a valid Count/Index pair in which feature 1 has no
profiles (`Index = [0, 0]`, `Count = [1, 1]`, 2 features, 2 profile slots).
The compressed-index sequence has 2 elements while the other three
descriptor sequences have 4, so the four sequences do not yield the same
number of elements. -/
theorem c5_counterexample :
    ([0, 0] : List Nat).all (fun v => decide (v < 2)) = true
      ∧ ([0, 0] : List Nat).length = ([1, 1] : List Nat).length
      ∧ (cIndicesICRA [0, 0] [1, 1] 2).length = 2
      ∧ (uIndicesICRA 2 2).length = 4
      ∧ (uShapesICRA 2 2 1).length = 4
      ∧ (locationsICRA 2 2).length = 4 := by
  decide

theorem map_range_getD_eq {α : Type _} (l : List α) (d : α) :
    (List.range l.length).map (fun j => l.getD j d) = l := by
  induction l with
  | nil => rfl
  | cons a t ih =>
    rw [List.length_cons, List.range_succ_eq_map, List.map_cons,
      List.map_map]
    refine congrArg₂ List.cons rfl ?_
    calc (List.range t.length).map ((fun j => (a :: t).getD j d) ∘ Nat.succ)
        = (List.range t.length).map (fun j => t.getD j d) :=
          List.map_congr_left (fun j _ => rfl)
      _ = t := ih

theorem getD_map_lt {α β : Type _} (f : α → β) (l : List α) (j : Nat)
    (h : j < l.length) (d : α) (e : β) :
    (l.map f).getD j e = f (l.getD j d) := by
  rw [List.getD_eq_getElem?_getD, List.getElem?_map,
    List.getElem?_eq_getElem h]
  simp [List.getD_eq_getElem?_getD, List.getElem?_eq_getElem h]

theorem getD_replicate_lt {α : Type _} (a : α) {nn mm : Nat} (h : mm < nn)
    (d : α) : (List.replicate nn a).getD mm d = a := by
  rw [List.getD_eq_getElem?_getD, List.getElem?_replicate, if_pos h]
  rfl

/-- C5 (amended): for every valid Count and Index input of an
indexed-contiguous ragged array whose Index covers every feature and in
which no feature has more profiles than the profile-slot axis size, the
four descriptor sequences yield the same number `n * maxP` of elements, in
the deterministic row-major order in which the `k`-th element of each
sequence describes the subarray at feature `k / maxP`, profile slot
`k % maxP`: the `k`-th compressed-index slice is the cumulative-sum slice
of that feature's `k % maxP`-th profile when the slot holds a profile, and
the zero-length ghost slice otherwise. -/
theorem c5_aligned_descriptors (index count : List Nat) (n maxP m : Nat)
    (hlen : index.length = count.length)
    (hb : ∀ v ∈ index, v < n)
    (hc : ∀ i < n, index.contains i = true)
    (hp : ∀ i ∈ sortedUnique index,
      (profileLocations index i).length ≤ maxP) :
    (uIndicesICRA n maxP).length = n * maxP
      ∧ (uShapesICRA n maxP m).length = n * maxP
      ∧ (cIndicesICRA index count maxP).length = n * maxP
      ∧ (locationsICRA n maxP).length = n * maxP
      ∧ ∀ k, k < n * maxP →
          (locationsICRA n maxP).getD k (0, 0, 0) = (k / maxP, k % maxP, 0)
          ∧ (uIndicesICRA n maxP).getD k
                (USlice.all, USlice.all, USlice.all)
              = (USlice.bounded (k / maxP) (k / maxP + 1),
                 USlice.bounded (k % maxP) (k % maxP + 1), USlice.all)
          ∧ (uShapesICRA n maxP m).getD k (0, 0, 0) = (1, 1, m)
          ∧ (cIndicesICRA index count maxP).getD k (0, 0)
              = if k % maxP < (profileLocations index (k / maxP)).length
                then specSlice count
                    ((profileLocations index (k / maxP)).getD (k % maxP) 0)
                else (0, 0) := by
  have hp' : ∀ i, i < n → (profileLocations index i).length ≤ maxP := by
    intro i hi
    refine hp i ?_
    rw [sortedUnique_eq_range hb hc]
    exact List.mem_range.2 hi
  have hblock : cIndicesICRA index count maxP
      = (List.range n).flatMap (fun i => (List.range maxP).map (fun j =>
          ((profileLocations index i).map (fun jj => codeSlice count jj)
            ++ List.replicate (maxP - (profileLocations index i).length)
                ((0 : Nat), (0 : Nat))).getD j (0, 0))) := by
    unfold cIndicesICRA
    rw [sortedUnique_eq_range hb hc]
    refine flatMap_congr_left (fun i hi => ?_)
    have hlen2 : ((profileLocations index i).map
        (fun jj => codeSlice count jj)
        ++ List.replicate (maxP - (profileLocations index i).length)
            ((0 : Nat), (0 : Nat))).length = maxP := by
      simp only [List.length_append, List.length_map, List.length_replicate]
      have h2 := hp' i (List.mem_range.1 hi)
      omega
    have h3 := map_range_getD_eq ((profileLocations index i).map
        (fun jj => codeSlice count jj)
        ++ List.replicate (maxP - (profileLocations index i).length)
            ((0 : Nat), (0 : Nat))) (0, 0)
    rw [hlen2] at h3
    exact h3.symm
  refine ⟨?_, ?_, length_cIndicesICRA hb hc hp, ?_,
    fun k hk => ⟨?_, ?_, ?_, ?_⟩⟩
  · rw [uIndicesICRA, blockList_eq, List.length_map, List.length_range]
  · rw [uShapesICRA, blockList_eq, List.length_map, List.length_range]
  · rw [locationsICRA, blockList_eq, List.length_map, List.length_range]
  · exact getD_blockList n maxP (fun i j => (i, j, 0)) _ k hk
  · exact getD_blockList n maxP
      (fun i j => (USlice.bounded i (i + 1), USlice.bounded j (j + 1),
        USlice.all)) _ k hk
  · exact getD_blockList n maxP (fun _ _ => (1, 1, m)) _ k hk
  · have hmp : 0 < maxP := by
      rcases Nat.eq_zero_or_pos maxP with h0 | h0
      · subst h0
        simp at hk
      · exact h0
    rw [hblock, getD_blockList n maxP _ _ k hk]
    by_cases hcase : k % maxP
        < (profileLocations index (k / maxP)).length
    · rw [if_pos hcase,
        List.getD_append _ _ _ _ (by simpa using hcase),
        getD_map_lt (fun jj => codeSlice count jj)
          (profileLocations index (k / maxP)) (k % maxP) hcase 0 (0, 0)]
      refine codeSlice_eq_specSlice count _ ?_
      have hmem : (profileLocations index (k / maxP)).getD (k % maxP) 0
          ∈ profileLocations index (k / maxP) := by
        rw [List.getD_eq_getElem (profileLocations index (k / maxP)) 0 hcase]
        exact List.getElem_mem _
      have h4 := mem_profileLocations_lt hmem
      omega
    · rw [if_neg hcase,
        List.getD_append_right _ _ _ _
          (by simpa using Nat.le_of_not_lt hcase),
        List.length_map]
      have hmod : k % maxP < maxP := Nat.mod_lt _ hmp
      exact getD_replicate_lt _ (by omega) _

/-- C5 witness: the aligned-length identity and the row-major pointwise
descriptors at the section-8 scenario, including the ghost compressed-index
slice of feature 1's second profile slot. -/
theorem c5_witness :
    (cIndicesICRA icraIndex icraCount 3).length = 2 * 3
      ∧ (locationsICRA 2 3).getD 4 (0, 0, 0) = (4 / 3, 4 % 3, 0)
      ∧ (cIndicesICRA icraIndex icraCount 3).getD 4 (0, 0)
          = if 4 % 3 < (profileLocations icraIndex (4 / 3)).length
            then specSlice icraCount
                ((profileLocations icraIndex (4 / 3)).getD (4 % 3) 0)
            else (0, 0) :=
  ⟨(c5_aligned_descriptors icraIndex icraCount 2 3 4 rfl (by decide)
      (by decide) (by decide)).2.2.1,
   ((c5_aligned_descriptors icraIndex icraCount 2 3 4 rfl (by decide)
      (by decide) (by decide)).2.2.2.2 4 (by decide)).1,
   ((c5_aligned_descriptors icraIndex icraCount 2 3 4 rfl (by decide)
      (by decide) (by decide)).2.2.2.2 4 (by decide)).2.2.2⟩

theorem countP_over_flatMap {α β : Type _} (l : List α) (f : α → List β)
    (p : β → Bool) :
    (l.flatMap f).countP p = (l.map (fun a => (f a).countP p)).sum := by
  rw [List.flatMap_def, List.countP_flatten, List.map_map]
  rfl

theorem flatMap_filter_perm (key : Nat → Nat) :
    ∀ (us : List Nat) (L : List Nat), us.Nodup → (∀ j ∈ L, key j ∈ us) →
      (us.flatMap (fun i => L.filter (fun j => key j == i))).Perm L := by
  intro us
  induction us with
  | nil =>
    intro L _ h
    cases L with
    | nil => exact List.Perm.refl _
    | cons a t => exact absurd (h a (by simp)) (by simp)
  | cons u us ih =>
    intro L hnd h
    have hnd' : us.Nodup := (List.nodup_cons.1 hnd).2
    have hu : u ∉ us := (List.nodup_cons.1 hnd).1
    simp only [List.flatMap_cons]
    have hblocks : us.flatMap (fun i => L.filter (fun j => key j == i))
        = us.flatMap (fun i =>
            (L.filter (fun j => !(key j == u))).filter
              (fun j => key j == i)) := by
      refine flatMap_congr_left (fun i hi => ?_)
      rw [List.filter_filter]
      refine List.filter_congr (fun j _ => ?_)
      by_cases hkey : key j = i
      · have hiu : i ≠ u := fun e => hu (e ▸ hi)
        rw [hkey]
        simp [hiu]
      · have hf : (key j == i) = false := by simpa using hkey
        rw [hf]
        simp
    rw [hblocks]
    have hperm : (us.flatMap (fun i =>
        (L.filter (fun j => !(key j == u))).filter
          (fun j => key j == i))).Perm
        (L.filter (fun j => !(key j == u))) := by
      refine ih _ hnd' (fun j hj => ?_)
      have hj2 := List.mem_filter.1 hj
      rcases List.mem_cons.1 (h j hj2.1) with he | hm
      · exact absurd hj2.2 (by simp [he])
      · exact hm
    exact ((List.Perm.append_left _ hperm).trans
      (List.filter_append_perm _ L))

theorem profile_partition_perm (index : List Nat) :
    ((sortedUnique index).flatMap
        (fun i => profileLocations index i)).Perm
      (List.range index.length) := by
  refine flatMap_filter_perm (fun j => index.getD j 0) (sortedUnique index)
    (List.range index.length) ((List.nodup_range _).filter _)
    (fun j hj => ?_)
  have hjl : j < index.length := List.mem_range.1 hj
  have hmem : index.getD j 0 ∈ index := by
    rw [List.getD_eq_getElem _ _ hjl]
    exact List.getElem_mem _
  refine List.mem_filter.2 ⟨?_, ?_⟩
  · exact List.mem_range.2 (Nat.lt_succ_of_le (listMax_ge_of_mem hmem))
  · simpa using hmem

theorem canon_slices_countP (cs : List Nat) (pre x : Nat) :
    ((List.range cs.length).map
        (fun j => (pre + (cs.take j).sum,
          pre + (cs.take (j + 1)).sum))).countP (containsB x)
      = if pre ≤ x ∧ x < pre + cs.sum then 1 else 0 := by
  induction cs generalizing pre with
  | nil =>
    simp only [List.length_nil, List.range_zero, List.map_nil,
      List.countP_nil, List.sum_nil]
    rw [if_neg]
    omega
  | cons c cs ih =>
    rw [List.length_cons, List.range_succ_eq_map, List.map_cons,
      List.map_map, List.countP_cons]
    have hmap : (List.range cs.length).map
        ((fun j => (pre + ((c :: cs).take j).sum,
          pre + ((c :: cs).take (j + 1)).sum)) ∘ Nat.succ)
        = (List.range cs.length).map
            (fun j => ((pre + c) + (cs.take j).sum,
              (pre + c) + (cs.take (j + 1)).sum)) := by
      refine List.map_congr_left (fun j _ => ?_)
      simp [Function.comp, List.take_succ_cons, List.sum_cons, Nat.add_assoc]
    rw [hmap, ih (pre + c)]
    simp only [List.take_succ_cons, List.take_zero, List.sum_nil,
      List.sum_cons, Nat.add_zero, containsB]
    simp only [decide_eq_true_eq]
    split_ifs <;> omega

theorem pairwise_of_countP_le_one {l : List (Nat × Nat)}
    (h : ∀ x, l.countP (containsB x) ≤ 1) :
    l.Pairwise
      (fun s t => ∀ x, ¬(containsB x s = true ∧ containsB x t = true)) := by
  induction l with
  | nil => exact List.Pairwise.nil
  | cons a t ih =>
    refine List.Pairwise.cons (fun b hb x hx => ?_)
      (ih (fun x => ?_))
    · have h1 := h x
      rw [List.countP_cons, if_pos hx.1] at h1
      have h2 : 0 < t.countP (containsB x) :=
        List.countP_pos_iff.2 ⟨b, hb, hx.2⟩
      omega
    · have h1 := h x
      rw [List.countP_cons] at h1
      exact Nat.le_trans (Nat.le_add_right _ _) h1

/-- C9: for every indexed-contiguous ragged array whose Index values cover
every feature, the non-empty compressed-index slices emitted by the subarea
descriptor generator are pairwise disjoint and their union is exactly the
interval from 0 to `sum(Count)`: every compressed element lies in exactly
one profile slice. -/
theorem c9_slices_partition (index count : List Nat) (n maxP : Nat)
    (hlen : index.length = count.length)
    (_hb : ∀ v ∈ index, v < n)
    (_hc : ∀ i < n, index.contains i = true) :
    (((cIndicesICRA index count maxP).filter
        (fun s => decide (s.1 < s.2))).Pairwise
        (fun s t => ∀ x, ¬(containsB x s = true ∧ containsB x t = true)))
      ∧ ∀ x, ((cIndicesICRA index count maxP).filter
            (fun s => decide (s.1 < s.2))).countP (containsB x)
          = if x < count.sum then 1 else 0 := by
  have key : ∀ x, (cIndicesICRA index count maxP).countP (containsB x)
      = if x < count.sum then 1 else 0 := by
    intro x
    rw [cIndices_eq_spec index count maxP hlen, countP_over_flatMap]
    have hstep : (sortedUnique index).map (fun i =>
        ((profileLocations index i).map (fun j => specSlice count j)
          ++ List.replicate (maxP - (profileLocations index i).length)
              (0, 0)).countP (containsB x))
        = (sortedUnique index).map (fun i =>
            (profileLocations index i).countP
              (containsB x ∘ fun j => specSlice count j)) := by
      refine List.map_congr_left (fun i _ => ?_)
      rw [List.countP_append, List.countP_map]
      have hz : (List.replicate (maxP - (profileLocations index i).length)
          ((0 : Nat), (0 : Nat))).countP (containsB x) = 0 :=
        List.countP_eq_zero.2 (fun s hs => by
          rw [List.eq_of_mem_replicate hs]
          simp [containsB])
      omega
    rw [hstep, ← countP_over_flatMap,
      List.Perm.countP_eq _ (profile_partition_perm index),
      ← List.countP_map, hlen]
    have hm : (List.range count.length).map (fun j => specSlice count j)
        = (List.range count.length).map (fun j =>
            (0 + (count.take j).sum, 0 + (count.take (j + 1)).sum)) := by
      refine List.map_congr_left (fun j _ => ?_)
      simp [specSlice]
    rw [hm, canon_slices_countP count 0 x]
    simp [Nat.zero_le]
  have hfilter : ∀ x, ((cIndicesICRA index count maxP).filter
      (fun s => decide (s.1 < s.2))).countP (containsB x)
      = (cIndicesICRA index count maxP).countP (containsB x) := by
    intro x
    rw [List.countP_filter]
    refine List.countP_congr (fun s _ => ?_)
    simp only [Bool.and_eq_true, decide_eq_true_eq, containsB]
    omega
  refine ⟨pairwise_of_countP_le_one (fun x => ?_),
    fun x => by rw [hfilter x, key x]⟩
  rw [hfilter x, key x]
  split_ifs <;> omega

/-- C9 witness: in the section-8 scenario the compressed element at
position 5 lies in exactly one emitted non-empty slice. -/
theorem c9_witness :
    ((cIndicesICRA icraIndex icraCount 3).filter
        (fun s => decide (s.1 < s.2))).countP (containsB 5)
      = if 5 < icraCount.sum then 1 else 0 :=
  (c9_slices_partition icraIndex icraCount 2 3 rfl (by decide)
    (by decide)).2 5

/-! ### Linear subsampled decoding (C3, C4) -/

theorem getD_map_range {α : Type _} (sz k : Nat) (f : Nat → α) (d : α)
    (h : k < sz) : ((List.range sz).map f).getD k d = f k := by
  rw [List.getD_eq_getElem?_getD, List.getElem?_map, List.getElem?_range h]
  rfl

theorem sCoeff_zero (sz : Nat) : sCoeff sz 0 = 0 := by
  simp [sCoeff]

theorem sCoeff_last {sz : Nat} (h : 2 ≤ sz) : sCoeff sz (sz - 1) = 1 := by
  unfold sCoeff
  rw [Nat.cast_sub (by omega : 1 ≤ sz), Nat.cast_one]
  refine div_self (fun he => ?_)
  have h2 : (2 : ℚ) ≤ (sz : ℚ) := by exact_mod_cast h
  have h3 : (sz : ℚ) = 1 := by linarith [sub_eq_zero.1 he]
  linarith

/-- C3: for the linear subsampled scenario with tie points
15, 135, 225, 255, 345 at uncompressed positions 0, 4, 7, 8, 11, the full
decode produces on the segment between positions 0 and 4 the five values
`u = ua*(1-s) + ub*s` with `s` evenly spaced, whose first and last values
equal 15 and 135 exactly. -/
theorem c3_linear_scenario :
    (decodeLinear [15, 135, 225, 255, 345] [0, 4, 7, 8, 11]).take 5
        = (List.range 5).map
            (fun k => 15 * (1 - sCoeff 5 k) + 135 * sCoeff 5 k)
      ∧ (decodeLinear [15, 135, 225, 255, 345] [0, 4, 7, 8, 11]).take 5
          = [15, 45, 75, 105, 135]
      ∧ (decodeLinear [15, 135, 225, 255, 345] [0, 4, 7, 8, 11]).getD 0 0
          = 15
      ∧ (decodeLinear [15, 135, 225, 255, 345] [0, 4, 7, 8, 11]).getD 4 0
          = 135 := by
  have hfull : decodeLinear [15, 135, 225, 255, 345] [0, 4, 7, 8, 11]
      = [15, 45, 75, 105, 135, 165, 195, 225, 255, 285, 315, 345] := by
    norm_num [decodeLinear, decodeLinearAux, linearInterp, linearInterpFull,
      sCoeff, List.range_succ]
  refine ⟨?_, ?_, ?_, ?_⟩
  · rw [hfull]
    norm_num [sCoeff, List.range_succ]
  · rw [hfull]
    rfl
  · rw [hfull]
    rfl
  · rw [hfull]
    rfl

/-- C4: for every interpolation subarea that is not the first of a new
continuous area, `_linear_interpolation` drops the computed value at the
subarea's first position, so each shared tie-point position is written
once, and the values two adjacent subareas compute for their shared
boundary both equal the shared tie point exactly. -/
theorem c4_boundary_dedup (ua ub uc : ℚ) (sza szb : Nat)
    (ha : 2 ≤ sza) (hb : 2 ≤ szb) :
    linearInterp ua ub sza true ++ linearInterp ub uc szb false
        = linearInterpFull ua ub sza ++ (linearInterpFull ub uc szb).drop 1
      ∧ (linearInterpFull ua ub sza).getD (sza - 1) 0 = ub
      ∧ (linearInterpFull ub uc szb).getD 0 0 = ub
      ∧ (linearInterp ub uc szb false).length = szb - 1
      ∧ (linearInterp ua ub sza true
            ++ linearInterp ub uc szb false).getD (sza - 1) 0 = ub := by
  have hlen1 : (linearInterp ua ub sza true).length = sza := by
    simp [linearInterp, linearInterpFull]
  have hlast : (linearInterpFull ua ub sza).getD (sza - 1) 0 = ub := by
    rw [linearInterpFull, getD_map_range _ _ _ _ (by omega), sCoeff_last ha]
    ring
  have hzero : (linearInterpFull ub uc szb).getD 0 0 = ub := by
    rw [linearInterpFull, getD_map_range _ _ _ _ (by omega), sCoeff_zero]
    ring
  refine ⟨rfl, hlast, hzero, ?_, ?_⟩
  · simp [linearInterp, linearInterpFull]
  · rw [List.getD_append _ _ _ _ (by omega)]
    exact hlast

/-- C4 witness: the boundary identities at tie points 15, 135, 225 with
subarea sizes 5 and 4. -/
theorem c4_witness :
    linearInterp 15 135 5 true ++ linearInterp 135 225 4 false
        = linearInterpFull 15 135 5 ++ (linearInterpFull 135 225 4).drop 1
      ∧ (linearInterpFull 15 135 5).getD (5 - 1) 0 = 135
      ∧ (linearInterpFull 135 225 4).getD 0 0 = 135
      ∧ (linearInterp 135 225 4 false).length = 4 - 1
      ∧ (linearInterp 15 135 5 true
            ++ linearInterp 135 225 4 false).getD (5 - 1) 0 = 135 :=
  c4_boundary_dedup 15 135 225 5 4 (by decide) (by decide)

/-! ### Geographic interpolation optional parameters (C7) -/

/-- C7: invoking `_fcea2cv` with the optional parameter `ce` absent returns
the same value as invoking it with `ce = 0`, and likewise for `ca`: an
absent optional parameter contributes zero, and the computation is total,
so no error is raised. -/
theorem c7_optional_params_zero (va vb : V3) (ce ca : Option ℝ) :
    fcea2cv va vb none ca = fcea2cv va vb (some 0) ca
      ∧ fcea2cv va vb ce none = fcea2cv va vb ce (some 0) := by
  constructor
  · cases ca <;>
      simp [fcea2cv, fplus, fminus, fmultiply, mul_zero, zero_mul, sub_zero,
        add_zero]
  · cases ce <;>
      simp [fcea2cv, fplus, fminus, fmultiply, fcross, mul_zero, zero_mul,
        sub_zero, add_zero]

/-! ### `Field.compress` failure paths (C8) -/

theorem string_append_cancel {a b c : String} (h : a ++ b = a ++ c) :
    b = c := by
  have hd : a.data ++ b.data = a.data ++ c.data := by
    have h2 := congrArg String.data h
    simp only [String.data_append] at h2
    exact h2
  have h3 : b.data = c.data := List.append_cancel_left hd
  cases b
  cases c
  exact congrArg String.mk (by simpa using h3)

theorem ragged_ne_gathered (m : String) : "ragged_" ++ m ≠ "gathered" := by
  intro h
  have hd : ("ragged_" : String).data ++ m.data
      = ("gathered" : String).data := by
    have h2 := congrArg String.data h
    simp only [String.data_append] at h2
    exact h2
  have h3 := congrArg List.head? hd
  simp at h3

/-- C8 counterexample: requesting the unimplemented `'gathered'` method on
a field construct with no data raises no error; the field is returned
unchanged, so the claim's "raises an error synchronously" fails there. -/
theorem c8_counterexample :
    compressField "gathered" emptyField = Except.ok emptyField := rfl

/-- C8 (amended): for a field construct that has data, requesting
compression by a method that is not implemented, `'gathered'` or any name
outside the supported set, raises a `ValueError` synchronously, and on that
failure the caller's field construct is left unchanged with no compressed
payload attached (a field without data is returned unchanged without
error). -/
theorem c8_unsupported_method_error (d : FData) (m : String)
    (hct : d.ctype ∈ validCTypes)
    (hm : m = "gathered"
      ∨ (m ≠ "contiguous" ∧ m ≠ "indexed" ∧ m ≠ "indexed_contiguous"
          ∧ m ≠ "gathered")) :
    compressField m ⟨some d⟩
        = Except.error (if m = "gathered"
            then "Compression by gathering is not yet available"
            else "Unknown compression method: " ++ m)
      ∧ afterCompress m ⟨some d⟩ = ⟨some d⟩ := by
  have hne : ¬(d.ctype ≠ "" ∧ underscoreSpaces d.ctype = "ragged_" ++ m) := by
    simp only [validCTypes, List.mem_cons, List.mem_singleton,
      List.not_mem_nil, or_false] at hct
    rcases hm with rfl | ⟨h1, h2, h3, h4⟩
    · rintro ⟨hne1, heq⟩
      rcases hct with h | h | h | h | h
      · exact hne1 h
      · rw [h] at heq
        exact absurd heq (by decide)
      · rw [h] at heq
        exact absurd heq (by decide)
      · rw [h] at heq
        exact absurd heq (by decide)
      · rw [h] at heq
        exact absurd heq (by decide)
    · rintro ⟨hne1, heq⟩
      rcases hct with h | h | h | h | h
      · exact hne1 h
      · rw [h] at heq
        exact h1 (string_append_cancel
          (show ("ragged_" : String) ++ "contiguous" = "ragged_" ++ m
            from heq)).symm
      · rw [h] at heq
        exact h2 (string_append_cancel
          (show ("ragged_" : String) ++ "indexed" = "ragged_" ++ m
            from heq)).symm
      · rw [h] at heq
        exact h3 (string_append_cancel
          (show ("ragged_" : String) ++ "indexed_contiguous"
              = "ragged_" ++ m from heq)).symm
      · rw [h] at heq
        exact ragged_ne_gathered m heq.symm
  have hmain : compressField m ⟨some d⟩
      = Except.error (if m = "gathered"
          then "Compression by gathering is not yet available"
          else "Unknown compression method: " ++ m) := by
    rcases hm with rfl | ⟨h1, h2, h3, h4⟩
    · simp only [compressField]
      simp
      intro h5 h6
      exact hne ⟨h5, h6.trans (by decide)⟩
    · simp [compressField, hne, h1, h2, h3, h4]
  exact ⟨hmain, by simp [afterCompress, hmain]⟩

/-- C8 witness: the unsupported-method error at a concrete field with
2-dimensional data and the `'gathered'` method. -/
theorem c8_witness :
    compressField "gathered" ⟨some c8Data⟩
        = Except.error (if ("gathered" : String) = "gathered"
            then "Compression by gathering is not yet available"
            else "Unknown compression method: " ++ "gathered")
      ∧ afterCompress "gathered" ⟨some c8Data⟩ = ⟨some c8Data⟩ :=
  c8_unsupported_method_error c8Data "gathered" (by simp [c8Data, validCTypes])
    (Or.inl rfl)

/-! ### Orthogonal subspacing keeps the rank (C10) -/

theorem axisPositions_getD (shape : List Nat) (idxs : List Idx) (k : Nat)
    (h1 : k < shape.length) (h2 : k < idxs.length) :
    (axisPositions shape idxs).getD k []
      = idxPositions
          (parseIdx (shape.getD k 0) (idxs.getD k (Idx.range 0 0))) := by
  induction shape generalizing idxs k with
  | nil => simp at h1
  | cons n ns ih =>
    cases idxs with
    | nil => simp at h2
    | cons ix rest =>
      cases k with
      | zero => rfl
      | succ j =>
        simp only [axisPositions, List.zipWith_cons_cons, List.getD_cons_succ]
        exact ih rest j (by simpa using h1) (by simpa using h2)

theorem int_positions (n : Nat) (i : ℤ) :
    idxPositions (parseIdx n (Idx.int i)) = [wrapIdx n i] := by
  simp only [parseIdx, idxPositions, Nat.add_sub_cancel_left]
  rfl

theorem getD_map_length {α : Type _} (l : List (List α)) (k : Nat)
    (h : k < l.length) :
    (l.map List.length).getD k 0 = (l.getD k []).length := by
  rw [List.getD_eq_getElem?_getD, List.getElem?_map,
    List.getElem?_eq_getElem h]
  simp [List.getD_eq_getElem?_getD, List.getElem?_eq_getElem h]

/-- C10: subspacing a field via `Field.__getitem__` preserves the number
of dimensions: the subspace has one axis per original axis, and an axis
indexed by a single integer keeps size 1, selecting exactly the
(possibly negatively wrapped) position of that element rather than
reducing the rank. -/
theorem c10_getitem_keeps_rank (shape : List Nat) (idxs : List Idx)
    (h : idxs.length = shape.length) :
    (subspaceShape shape idxs).length = shape.length
      ∧ ∀ k i, k < shape.length →
          idxs.getD k (Idx.range 0 0) = Idx.int i →
          (subspaceShape shape idxs).getD k 0 = 1
          ∧ (axisPositions shape idxs).getD k []
              = [wrapIdx (shape.getD k 0) i] := by
  have hlen : (axisPositions shape idxs).length = shape.length := by
    simp [axisPositions, List.length_zipWith, h]
  refine ⟨by simp [subspaceShape, hlen], fun k i hk hik => ?_⟩
  have hk2 : k < idxs.length := by omega
  have hpos := axisPositions_getD shape idxs k hk hk2
  rw [hik, int_positions] at hpos
  refine ⟨?_, hpos⟩
  rw [subspaceShape, getD_map_length _ _ (by omega), hpos]
  rfl

/-- C10 witness: the docstring subspace `f[:, :, 1]` of a field with data
shape (1, 10, 9) keeps 3 dimensions, the integer-indexed axis having
size 1 at position 1. -/
theorem c10_witness :
    (subspaceShape c10Shape c10Idxs).length = 3
      ∧ (subspaceShape c10Shape c10Idxs).getD 2 0 = 1
      ∧ (axisPositions c10Shape c10Idxs).getD 2 []
          = [wrapIdx (c10Shape.getD 2 0) 1] :=
  ⟨(c10_getitem_keeps_rank c10Shape c10Idxs rfl).1,
   ((c10_getitem_keeps_rank c10Shape c10Idxs rfl).2 2 1 (by decide) rfl).1,
   ((c10_getitem_keeps_rank c10Shape c10Idxs rfl).2 2 1 (by decide) rfl).2⟩

end Cfdm
